import Mathlib

/-!
Shallow embedding of `vz::TransferBuffer` (src/include/TransferBuffer.hpp)
and of the parts of its collaborators (`Reading`, the producer-side
`Buffer`) that the transfer-buffer algorithm observes.

The C++ class stores `std::vector<Reading> _impl` together with a
`_history_size` index splitting the stored sequence into a history region
`[0, _history_size)` and a live region `[_history_size, _impl.size())`,
plus a `_target_capacity` soft bound on reserved storage.

`std::vector` reserved capacity is modelled explicitly (field `cap`),
following the libstdc++ allocator behaviour the program runs against:
`reserve n` raises capacity to at least `n`; `push_back` on a full vector
doubles the capacity (1 from 0); range-`assign` of `n` elements into a
vector of smaller capacity reallocates to exactly `n`; `erase` and
`clear` never change capacity; `swap` exchanges capacities.
-/

namespace VzTransfer

/-- Modelled from the spec: `Reading` (Reading.hpp is not part of the shown
sources). Section 3 of the design: a value, a timestamp in milliseconds,
and a soft-delete flag; equality for dedup purposes is on `value`. The
transfer buffer observes exactly `value()`, `time_ms()`, `deleted()` and
`mark_delete()`. -/
structure Reading where
  value : ℚ
  time_ms : Int
  deleted : Bool
deriving DecidableEq

/-- Placeholder reading used where the C++ code would dereference an
iterator of an empty vector (undefined behaviour, unreachable on the
paths the algorithm takes). -/
def ubReading : Reading := ⟨0, 0, false⟩

instance : Inhabited Reading := ⟨ubReading⟩

/-- Modelled from the spec: conversion of the source representation of a
timestamp (seconds + microseconds, cf. section 3: "composed of
seconds+microseconds in the source representation") to milliseconds.
Integer division truncates, matching the repository's unit tests
(ut_TransferBuffer.cpp: stamp {40 s, 1 us} reads back as 40000 ms and
{4 s, 999999 us} behaves as 4999 ms). -/
def time_ms_of (sec usec : Nat) : Int := (sec * 1000 + usec / 1000 : Nat)

/-- Convenience constructor for a not-deleted reading from a
(seconds, microseconds) stamp as pushed by the unit tests. -/
def rdg (v : ℚ) (sec usec : Nat) : Reading := ⟨v, time_ms_of sec usec, false⟩

/-- The rational number 21/10, the scenario value written `2.1` in the
unit tests (the decimal literal's `OfScientific` form is irreducible, so
the reduced fraction is spelled out). -/
def q21 : ℚ := Rat.mk' 21 10

/-- A `std::vector<Reading>` together with its reserved capacity. -/
structure Vec where
  data : List Reading
  cap : Nat
deriving DecidableEq

/-- `push_back`: appends one element; on a full vector libstdc++ grows the
allocation to twice the old size (to 1 from 0). -/
def Vec.push (v : Vec) (r : Reading) : Vec :=
  { data := v.data ++ [r],
    cap := if v.data.length = v.cap then (if v.cap = 0 then 1 else 2 * v.cap) else v.cap }

/-- The acceptance test of `append` (line 148 of TransferBuffer.hpp),
verbatim: `dt > 0 && (dt >= min_ms_between_duplicates || it->value() !=
prev->value())` with `dt = it->time_ms() - prev->time_ms()`. -/
def acceptCond (m : Int) (prev r : Reading) : Prop :=
  0 < r.time_ms - prev.time_ms ∧
    (m ≤ r.time_ms - prev.time_ms ∨ r.value ≠ prev.value)

instance (m : Int) (prev r : Reading) : Decidable (acceptCond m prev r) := by
  unfold acceptCond; exact inferInstance

/-- The `vz::TransferBuffer` state: backing vector `_impl`, the history
split index `_history_size`, and `_target_capacity`. -/
structure TransferBuffer where
  impl : Vec
  history_size : Nat
  target_capacity : Nat
deriving DecidableEq

namespace TransferBuffer

/-- `default_target_capacity = 4096`. -/
def default_target_capacity : Nat := 4096

/-- Constructor `TransferBuffer(nmax)`: empty vector with `nmax` reserved. -/
def ofCapacity (nmax : Nat := default_target_capacity) : TransferBuffer :=
  ⟨⟨[], nmax⟩, 0, nmax⟩

/-- `size() = end() - begin()`, the live-element count `len - history_size`
(exact whenever `history_size ≤ len`; the C++ difference is undefined
behaviour otherwise). -/
def size (b : TransferBuffer) : Nat := b.impl.data.length - b.history_size

/-- `empty()`: `begin() == end()`, i.e. the pointers `base + history_size`
and `base + length` coincide. -/
def empty (b : TransferBuffer) : Bool := b.history_size == b.impl.data.length

/-- `capacity() = _impl.capacity() - _history_size`. -/
def capacity (b : TransferBuffer) : Nat := b.impl.cap - b.history_size

/-- `reserve(n)`: `_impl.reserve(n + _history_size)`. -/
def reserve (b : TransferBuffer) (n : Nat) : TransferBuffer :=
  { b with impl := { b.impl with cap := max b.impl.cap (n + b.history_size) } }

/-- `clear()`: `_impl.clear()` empties the vector (capacity retained).
Note that the C++ method leaves `_history_size` untouched. -/
def clear (b : TransferBuffer) : TransferBuffer :=
  { b with impl := { data := [], cap := b.impl.cap } }

/-- `shrink_to_target_capacity()`: no-op when `capacity() <= _target_capacity`;
otherwise a fresh vector reserves `_target_capacity`, range-assigns all
stored elements (growing to exactly their number when it exceeds the
reservation) and is swapped in. -/
def shrink_to_target_capacity (b : TransferBuffer) : TransferBuffer :=
  if b.capacity ≤ b.target_capacity then b
  else { b with impl := { data := b.impl.data, cap := max b.target_capacity b.impl.data.length } }

/-- `discard(n, keep)`: `last = begin() + min(n, size())`; the erase of
`[_impl.begin(), last - _history_size)` runs when that iterator lies
strictly past `_impl.begin()`; then the capacity check against
`4 * _target_capacity` may trigger a shrink. Returns `ndel = last - begin()`. -/
def discard (b : TransferBuffer) (n : Nat) (keep : Nat := 1) : TransferBuffer × Nat :=
  let cut := b.history_size + min n b.size
  let ndel := min n b.size
  let hs := min keep b.impl.data.length
  let impl1 : Vec :=
    if hs < cut then { data := b.impl.data.drop (cut - hs), cap := b.impl.cap } else b.impl
  let b1 : TransferBuffer := { b with impl := impl1, history_size := hs }
  let b2 := if 4 * b1.target_capacity < b1.capacity then b1.shrink_to_target_capacity else b1
  (b2, ndel)

/-- The scan loop of `append` (lines 136-152): walk the remaining source
readings; skip deleted ones; compare each candidate against the last
stored element `--_impl.end()`; push it when
`dt > 0 && (dt >= min_ms || value differs)`; mark every scanned
not-deleted reading deleted. Returns the source readings (with updated
flags) and the grown vector. -/
def scanLoop (m : Int) : List Reading → Vec → List Reading × Vec
  | [], v => ([], v)
  | r :: rest, v =>
    if r.deleted then
      let p := scanLoop m rest v
      (r :: p.1, p.2)
    else
      let prev := v.data.getLastD ubReading
      let v' := if acceptCond m prev r then v.push r else v
      let p := scanLoop m rest v'
      ({ r with deleted := true } :: p.1, p.2)

/-- `append(src, channel, min_ms_between_duplicates)`: skip leading deleted
source readings (left untouched); return 0 on an exhausted source; if the
vector is completely empty accept the first not-deleted reading
unconditionally and mark it; then run the scan loop. Returns the updated
buffer, the source with its updated delete flags, and `end() - old_end`,
the number of elements pushed. The debug print and the scoped source lock
have no effect on the data and are not modelled. -/
def append (b : TransferBuffer) (src : List Reading) (m : Int := 0) :
    TransferBuffer × List Reading × Nat :=
  let pre := src.takeWhile fun r => r.deleted
  let post := src.dropWhile fun r => r.deleted
  match post with
  | [] => (b, src, 0)
  | r :: rest =>
    let oldLen := b.impl.data.length
    let p :=
      if b.impl.data.isEmpty then
        let q := scanLoop m rest (b.impl.push r)
        ({ r with deleted := true } :: q.1, q.2)
      else
        scanLoop m (r :: rest) b.impl
    ({ b with impl := p.2 }, pre ++ p.1, p.2.data.length - oldLen)

end TransferBuffer

/-- An abstract operation on the transfer buffer, for stating invariants
over arbitrary operation sequences. -/
inductive Op where
  | app (src : List Reading) (m : Int)
  | dis (n keep : Nat)
  | clr
  | shrink
  | res (n : Nat)

/-- Apply one operation. -/
def applyOp (b : TransferBuffer) : Op → TransferBuffer
  | .app src m => (b.append src m).1
  | .dis n keep => (b.discard n keep).1
  | .clr => b.clear
  | .shrink => b.shrink_to_target_capacity
  | .res n => b.reserve n

/-- Run a sequence of operations from a freshly constructed buffer. -/
def run (nmax : Nat) (ops : List Op) : TransferBuffer :=
  ops.foldl applyOp (TransferBuffer.ofCapacity nmax)

/-- Strict timestamp order between two readings. -/
def tlt (a b : Reading) : Prop := a.time_ms < b.time_ms

/-- Written from the spec's words (design 4.2 step 4, the sentence of the
claims): given the element `prev` the buffer last stored, the sublist of
readings accepted by the rule "a scanned not-deleted reading `r` is
appended iff `dt > 0` and (`dt >= min_ms_between_duplicates` or
`r.value != prev.value`)", where `prev` advances to each accepted reading. -/
def specAccepted (m : Int) : Reading → List Reading → List Reading
  | _, [] => []
  | prev, r :: rest =>
    if r.deleted then specAccepted m prev rest
    else if acceptCond m prev r then r :: specAccepted m r rest
    else specAccepted m prev rest

/-- Written from the spec's words: the full list of readings one `append`
call accepts, including the unconditional first acceptance into a
completely empty buffer. -/
def appendSpec (b : TransferBuffer) (src : List Reading) (m : Int) : List Reading :=
  match src.dropWhile (fun r => r.deleted) with
  | [] => []
  | r :: rest =>
    if b.impl.data.isEmpty then r :: specAccepted m r rest
    else specAccepted m (b.impl.data.getLastD ubReading) (r :: rest)

/-! ### Concrete inputs used by scenario theorems -/

/-- Reading with value 1 at 1000 ms. -/
def rd1 : Reading := ⟨1, 1000, false⟩

/-- Reading with value 2 at 2000 ms. -/
def rd2 : Reading := ⟨2, 2000, false⟩

/-- Reading with value 3 at 3000 ms. -/
def rd3 : Reading := ⟨3, 3000, false⟩

/-- Buffer holding `rd1, rd2, rd3` live (history empty), built by a single
append into a default-capacity buffer. -/
def bufThree : TransferBuffer := ((TransferBuffer.ofCapacity).append [rd1, rd2, rd3]).1

/-- Six strictly increasing readings. -/
def srcSix : List Reading :=
  [⟨1, 1000, false⟩, ⟨2, 2000, false⟩, ⟨3, 3000, false⟩,
   ⟨4, 4000, false⟩, ⟨5, 5000, false⟩, ⟨6, 6000, false⟩]

/-- Buffer with target capacity 1 holding six live readings (backing
capacity has doubled up to 8). -/
def bufSix : TransferBuffer := ((TransferBuffer.ofCapacity 1).append srcSix).1

/-- Buffer with target capacity 1 holding three live readings (backing
capacity has doubled up to 4). -/
def bufThreeSmall : TransferBuffer := ((TransferBuffer.ofCapacity 1).append [rd1, rd2, rd3]).1

/-- Claim C10's literal input: the (value, timestamp-ms) pairs it lists. -/
def srcClaim10 : List Reading :=
  [⟨1, 1000, false⟩, ⟨2, 2000, false⟩, ⟨q21, 3000, false⟩, ⟨q21, 3200, false⟩,
   ⟨q21, 3499, false⟩, ⟨q21, 3500, false⟩, ⟨q21, 3990, false⟩, ⟨q21, 4000, false⟩]

/-- The dedup scenario's source as the repository's unit test actually
builds it (ut_TransferBuffer.cpp, `filter_by_time`): second/microsecond
stamps {1,0},{2,0},{3,0},{3,200},{3,499},{3,500},{3,990},{3,1000}. -/
def srcScenario : List Reading :=
  [rdg 1 1 0, rdg 2 2 0, rdg q21 3 0, rdg q21 3 200,
   rdg q21 3 499, rdg q21 3 500, rdg q21 3 990, rdg q21 3 1000]

/-- Operation sequence: append one reading, `discard(1, 1)` retaining it
as history, then `clear()`. -/
def opsClear : List Op := [.app [⟨1, 1000, false⟩] 0, .dis 1 1, .clr]

/-- One-element buffer with empty history; its baseline reading is at
1000 ms. -/
def bufOne : TransferBuffer := ⟨⟨[⟨1, 1000, false⟩], 4096⟩, 0, 4096⟩

/-- A stale candidate: timestamp 900 ms, not later than the baseline. -/
def rdLate : Reading := ⟨2, 900, false⟩

/-! ### Helper lemmas -/

/-- Dropping a chain's front keeps it a chain. -/
lemma chain'_drop {R : Reading → Reading → Prop} {l : List Reading}
    (h : List.Chain' R l) : ∀ k, List.Chain' R (l.drop k)
  | 0 => h
  | k + 1 => by
    rw [← List.tail_drop]
    exact (chain'_drop h k).tail

/-- Dropping strictly fewer elements than the length keeps the last element. -/
lemma getLast?_drop : ∀ (l : List Reading) (k : Nat), k < l.length →
    (l.drop k).getLast? = l.getLast?
  | [], k, h => absurd h (by simp)
  | _ :: _, 0, _ => rfl
  | a :: tl, k + 1, h => by
    have hk : k < tl.length := by simpa using h
    rw [List.drop_succ_cons, getLast?_drop tl k hk]
    cases tl with
    | nil => simp at hk
    | cons b tl' => simp

/-- A list all of whose elements satisfy `p` is exhausted by `dropWhile p`. -/
lemma dropWhile_eq_nil_of_all {p : Reading → Bool} :
    ∀ {l : List Reading}, l.all p = true → l.dropWhile p = []
  | [], _ => rfl
  | a :: tl, h => by
    rw [List.all_cons, Bool.and_eq_true] at h
    simp [List.dropWhile_cons, h.1, dropWhile_eq_nil_of_all h.2]

namespace TransferBuffer

/-- Shrinking never changes the stored elements. -/
lemma shrink_data (b : TransferBuffer) :
    b.shrink_to_target_capacity.impl.data = b.impl.data := by
  unfold shrink_to_target_capacity; split <;> rfl

/-- Shrinking never changes the history split. -/
lemma shrink_history_size (b : TransferBuffer) :
    b.shrink_to_target_capacity.history_size = b.history_size := by
  unfold shrink_to_target_capacity; split <;> rfl

/-- Shrinking never changes the target capacity. -/
lemma shrink_target_capacity (b : TransferBuffer) :
    b.shrink_to_target_capacity.target_capacity = b.target_capacity := by
  unfold shrink_to_target_capacity; split <;> rfl

/-- A discard's resulting stored elements and history split, before the
opportunistic shrink (which does not alter either). -/
lemma discard_fst_impl_data (b : TransferBuffer) (n keep : Nat) :
    (b.discard n keep).1.impl.data =
      (if min keep b.impl.data.length < b.history_size + min n b.size then
        b.impl.data.drop (b.history_size + min n b.size - min keep b.impl.data.length)
      else b.impl.data) ∧
    (b.discard n keep).1.history_size = min keep b.impl.data.length ∧
    (b.discard n keep).1.target_capacity = b.target_capacity := by
  unfold discard
  simp only
  refine ⟨?_, ?_, ?_⟩ <;>
    split <;> split <;>
      simp [shrink_data, shrink_history_size, shrink_target_capacity]

end TransferBuffer

/-- The scan loop grows the vector by exactly the readings the spec's
acceptance rule selects, threading `prev` through the vector's last
element. -/
lemma scanLoop_snd_data (m : Int) (src : List Reading) : ∀ v : Vec,
    ((TransferBuffer.scanLoop m src v).2).data
      = v.data ++ specAccepted m (v.data.getLastD ubReading) src := by
  induction src with
  | nil => intro v; simp [TransferBuffer.scanLoop, specAccepted]
  | cons r rest ih =>
    intro v
    by_cases hd : r.deleted
    · simp [TransferBuffer.scanLoop, specAccepted, hd, ih]
    · by_cases hacc : acceptCond m (v.data.getLastD ubReading) r
      · simp only [TransferBuffer.scanLoop, specAccepted, hd, Bool.false_eq_true, if_false,
          if_pos hacc]
        rw [ih (v.push r)]
        simp [Vec.push, List.getLastD_concat]
      · simp only [TransferBuffer.scanLoop, specAccepted, hd, Bool.false_eq_true, if_false,
          if_neg hacc]
        rw [ih v]

/-- The scan loop only toggles delete flags: source values are unchanged. -/
lemma scanLoop_fst_map_value (m : Int) (src : List Reading) : ∀ v : Vec,
    ((TransferBuffer.scanLoop m src v).1).map (fun r => r.value)
      = src.map (fun r => r.value) := by
  induction src with
  | nil => intro v; simp [TransferBuffer.scanLoop]
  | cons r rest ih =>
    intro v
    by_cases hd : r.deleted <;> simp [TransferBuffer.scanLoop, hd, ih]

/-- The scan loop only toggles delete flags: source timestamps are unchanged. -/
lemma scanLoop_fst_map_time (m : Int) (src : List Reading) : ∀ v : Vec,
    ((TransferBuffer.scanLoop m src v).1).map (fun r => r.time_ms)
      = src.map (fun r => r.time_ms) := by
  induction src with
  | nil => intro v; simp [TransferBuffer.scanLoop]
  | cons r rest ih =>
    intro v
    by_cases hd : r.deleted <;> simp [TransferBuffer.scanLoop, hd, ih]

/-- Every reading the scan loop hands back carries a set delete flag. -/
lemma scanLoop_fst_all_deleted (m : Int) (src : List Reading) : ∀ v : Vec,
    ((TransferBuffer.scanLoop m src v).1).all (fun r => r.deleted) = true := by
  induction src with
  | nil => intro v; simp [TransferBuffer.scanLoop]
  | cons r rest ih =>
    intro v
    by_cases hd : r.deleted <;> simp [TransferBuffer.scanLoop, hd, ih]

/-- The scan loop preserves strictly increasing timestamps of the stored
sequence: a pushed reading's `dt > 0` check places it after the vector's
last element. -/
lemma scanLoop_chain (m : Int) (src : List Reading) : ∀ v : Vec,
    List.Chain' tlt v.data → List.Chain' tlt ((TransferBuffer.scanLoop m src v).2).data := by
  induction src with
  | nil => intro v hv; simpa [TransferBuffer.scanLoop] using hv
  | cons r rest ih =>
    intro v hv
    by_cases hd : r.deleted
    · simpa [TransferBuffer.scanLoop, hd] using ih v hv
    · by_cases hacc : acceptCond m (v.data.getLastD ubReading) r
      · simp only [TransferBuffer.scanLoop, hd, Bool.false_eq_true, if_false, if_pos hacc]
        refine ih (v.push r) ?_
        have hpush : (v.push r).data = v.data ++ [r] := rfl
        rw [hpush]
        refine List.Chain'.append hv (List.chain'_singleton r) ?_
        intro x hx y hy
        have hy' : y = r := by
          have h := hy
          simp only [List.head?_cons, Option.mem_def, Option.some.injEq] at h
          exact h.symm
        have hx' : v.data.getLastD ubReading = x := by
          rw [List.getLastD_eq_getLast?, Option.mem_def.mp hx]
          rfl
        have h1 : 0 < r.time_ms - (v.data.getLastD ubReading).time_ms := hacc.1
        rw [hx'] at h1
        subst hy'
        show x.time_ms < y.time_ms
        omega
      · simp only [TransferBuffer.scanLoop, hd, Bool.false_eq_true, if_false, if_neg hacc]
        exact ih v hv

/-- The source list handed back by `append` preserves every value. -/
lemma append_src_map_value (b : TransferBuffer) (src : List Reading) (m : Int) :
    ((b.append src m).2.1).map (fun r => r.value) = src.map (fun r => r.value) := by
  unfold TransferBuffer.append
  cases hpost : src.dropWhile (fun r => r.deleted) with
  | nil => rfl
  | cons r rest =>
    conv_rhs => rw [← List.takeWhile_append_dropWhile (fun r => r.deleted) src, hpost]
    by_cases he : b.impl.data.isEmpty <;>
      simp [he, List.map_append, scanLoop_fst_map_value]

/-- The source list handed back by `append` preserves every timestamp. -/
lemma append_src_map_time (b : TransferBuffer) (src : List Reading) (m : Int) :
    ((b.append src m).2.1).map (fun r => r.time_ms) = src.map (fun r => r.time_ms) := by
  unfold TransferBuffer.append
  cases hpost : src.dropWhile (fun r => r.deleted) with
  | nil => rfl
  | cons r rest =>
    conv_rhs => rw [← List.takeWhile_append_dropWhile (fun r => r.deleted) src, hpost]
    by_cases he : b.impl.data.isEmpty <;>
      simp [he, List.map_append, scanLoop_fst_map_time]

/-- After `append` every reading of the handed-back source is deleted. -/
lemma append_src_all_deleted (b : TransferBuffer) (src : List Reading) (m : Int) :
    ((b.append src m).2.1).all (fun r => r.deleted) = true := by
  unfold TransferBuffer.append
  cases hpost : src.dropWhile (fun r => r.deleted) with
  | nil =>
    have hsrc : src.takeWhile (fun r => r.deleted) = src := by
      conv_rhs => rw [← List.takeWhile_append_dropWhile (fun r => r.deleted) src, hpost]
      simp
    simpa [hsrc] using List.all_takeWhile (p := fun r => r.deleted) (l := src)
  | cons r rest =>
    by_cases he : b.impl.data.isEmpty <;>
      simp [he, List.all_append, List.all_takeWhile, scanLoop_fst_all_deleted]

/-- An `append` from a source whose every reading is already deleted is a
complete no-op returning 0 (the early return at line 124). -/
lemma append_all_deleted_eq (b : TransferBuffer) (src : List Reading) (m : Int)
    (h : src.all (fun r => r.deleted) = true) : b.append src m = (b, src, 0) := by
  unfold TransferBuffer.append
  rw [dropWhile_eq_nil_of_all h]

/-- `append` preserves strictly increasing stored timestamps. -/
lemma append_chain (b : TransferBuffer) (src : List Reading) (m : Int)
    (h : List.Chain' tlt b.impl.data) :
    List.Chain' tlt ((b.append src m).1).impl.data := by
  unfold TransferBuffer.append
  cases hpost : src.dropWhile (fun r => r.deleted) with
  | nil => exact h
  | cons r rest =>
    by_cases he : b.impl.data.isEmpty
    · have hbd : b.impl.data = [] := List.isEmpty_iff.mp he
      simp only [he, if_true]
      refine scanLoop_chain m rest (b.impl.push r) ?_
      have hp : (b.impl.push r).data = b.impl.data ++ [r] := rfl
      rw [hp, hbd]
      exact List.chain'_singleton r
    · simp only [he, Bool.false_eq_true, if_false]
      exact scanLoop_chain m (r :: rest) b.impl h

/-- `discard` keeps a front-dropped stored sequence, hence preserves
strictly increasing stored timestamps. -/
lemma discard_chain (b : TransferBuffer) (n keep : Nat)
    (h : List.Chain' tlt b.impl.data) :
    List.Chain' tlt ((b.discard n keep).1).impl.data := by
  rw [(TransferBuffer.discard_fst_impl_data b n keep).1]
  split
  · exact chain'_drop h _
  · exact h

/-- Every operation preserves strictly increasing stored timestamps. -/
lemma applyOp_chain (b : TransferBuffer) (op : Op)
    (h : List.Chain' tlt b.impl.data) :
    List.Chain' tlt (applyOp b op).impl.data := by
  cases op with
  | app src m => exact append_chain b src m h
  | dis n keep => exact discard_chain b n keep h
  | clr => exact List.chain'_nil
  | shrink =>
    show List.Chain' tlt b.shrink_to_target_capacity.impl.data
    rw [TransferBuffer.shrink_data]
    exact h
  | res n => exact h

/-- Appending a single not-deleted reading whose timestamp does not exceed
the last stored element's leaves a non-empty buffer unchanged and returns 0. -/
lemma append_single_stale (b : TransferBuffer) (r : Reading) (m : Int)
    (hne : b.impl.data ≠ []) (hr : r.deleted = false)
    (ht : r.time_ms ≤ (b.impl.data.getLastD ubReading).time_ms) :
    (b.append [r] m).1.impl.data = b.impl.data ∧ (b.append [r] m).2.2 = 0 := by
  have hie : ¬(b.impl.data.isEmpty = true) := by
    rw [List.isEmpty_iff]; exact hne
  have hnacc : ¬acceptCond m (b.impl.data.getLastD ubReading) r := by
    intro hacc
    have h1 : 0 < r.time_ms - (b.impl.data.getLastD ubReading).time_ms := hacc.1
    omega
  unfold TransferBuffer.append
  have hdw : List.dropWhile (fun x => x.deleted) [r] = [r] := by
    simp [List.dropWhile_cons, hr]
  rw [hdw]
  simp only [hie, Bool.false_eq_true, if_false,
    TransferBuffer.scanLoop, hr, if_neg hnacc]
  exact ⟨trivial, Nat.sub_self _⟩

/-! ### Claim theorems -/

/-- C1: for every call to `append(source, channel, min_ms_between_duplicates)`,
a scanned not-deleted reading `r` is appended if and only if `dt > 0` and
(`dt >= min_ms_between_duplicates` or `r.value != prev.value`), `prev`
being the buffer's last stored element when `r` is examined, except that
into a completely empty buffer the first not-deleted reading is accepted
unconditionally: the stored sequence grows by exactly `appendSpec` (the
rule transcribed from the spec's words) and the returned count is its
length. -/
theorem claim1_append_accepts_iff (b : TransferBuffer) (src : List Reading) (m : Int) :
    (b.append src m).1.impl.data = b.impl.data ++ appendSpec b src m ∧
    (b.append src m).2.2 = (appendSpec b src m).length := by
  unfold TransferBuffer.append appendSpec
  cases hpost : src.dropWhile (fun r => r.deleted) with
  | nil => simp
  | cons r rest =>
    by_cases he : b.impl.data.isEmpty
    · have hbd : b.impl.data = [] := List.isEmpty_iff.mp he
      simp only [he, if_true]
      have hq := scanLoop_snd_data m rest (b.impl.push r)
      have hp : (b.impl.push r).data = b.impl.data ++ [r] := rfl
      rw [hp, hbd] at hq
      constructor
      · rw [hq]; simp [hbd, List.getLastD_concat]
      · rw [hq]; simp [hbd]
    · simp only [he, Bool.false_eq_true, if_false]
      have hq := scanLoop_snd_data m (r :: rest) b.impl
      constructor
      · rw [hq]
      · rw [hq]; simp

/-- C2: for every sequence of operations (append, discard, clear,
shrink_to_target_capacity, reserve) starting from a freshly constructed
TransferBuffer, the full stored sequence (history plus live) has strictly
increasing timestamps. -/
theorem claim2_monotonic_timestamps (nmax : Nat) (ops : List Op) :
    List.Chain' tlt (run nmax ops).impl.data := by
  unfold run
  have key : ∀ (l : List Op) (b : TransferBuffer), List.Chain' tlt b.impl.data →
      List.Chain' tlt (l.foldl applyOp b).impl.data := by
    intro l
    induction l with
    | nil => intro b hb; exact hb
    | cons op rest ih => intro b hb; exact ih _ (applyOp_chain b op hb)
  exact key ops _ List.chain'_nil

/-- C3: after any `append(source, ...)`, every reading of the handed-back
source is marked deleted (so in particular each reading that was
not-deleted before the call is deleted after it), while no value or
timestamp changes and no element is removed: `append` only toggles delete
flags in the source. -/
theorem claim3_append_consumes_source (b : TransferBuffer) (src : List Reading) (m : Int) :
    ((b.append src m).2.1).map (fun r => r.value) = src.map (fun r => r.value) ∧
    ((b.append src m).2.1).map (fun r => r.time_ms) = src.map (fun r => r.time_ms) ∧
    ((b.append src m).2.1).all (fun r => r.deleted) = true :=
  ⟨append_src_map_value b src m, append_src_map_time b src m,
    append_src_all_deleted b src m⟩

/-- C7: calling `append` twice on the same source with no new readings
pushed in between makes the second call return 0 and change nothing: the
first call left every source reading marked deleted. -/
theorem claim7_at_most_one_copy (b : TransferBuffer) (src : List Reading) (m m' : Int) :
    ((b.append src m).1.append ((b.append src m).2.1) m').2.2 = 0 ∧
    ((b.append src m).1.append ((b.append src m).2.1) m').1 = (b.append src m).1 ∧
    ((b.append src m).1.append ((b.append src m).2.1) m').2.1 = (b.append src m).2.1 := by
  rw [append_all_deleted_eq (b.append src m).1 ((b.append src m).2.1) m'
    (append_src_all_deleted b src m)]
  exact ⟨rfl, rfl, rfl⟩

/-- C4 (code bug): `clear()` empties `_impl` but leaves `_history_size`
untouched. On a buffer whose history holds one reading (append one,
`discard(1, 1)`), a `clear()` leaves `history_size = 1` with 0 stored
elements, violating `history_size <= total stored size`, and `empty()`
(`begin() == end()`, i.e. `base + 1 == base + 0`) is false rather than
true as the claim and the method's own documentation ("Clear all values,
including history") require. -/
theorem claim4_clear_leaves_stale_history :
    (run 4096 opsClear).history_size = 1 ∧
    (run 4096 opsClear).impl.data.length = 0 ∧
    ¬((run 4096 opsClear).history_size ≤ (run 4096 opsClear).impl.data.length) ∧
    (run 4096 opsClear).empty = false := by decide

/-- C5 counterexample: on a buffer with live `[rd1, rd2, rd3]` (history
empty), `discard(1, 3)` returns 1, yet the live region afterwards is
empty instead of the previous live elements from position
`min(n, s) = 1` onward (`[rd2, rd3]`): `keep = 3` demoted all three
stored elements into history, so 3 elements left the live view, not 1. -/
theorem claim5_counterexample :
    (bufThree.discard 1 3).2 = 1 ∧
    (bufThree.impl.data.drop bufThree.history_size).drop (min 1 bufThree.size)
      = [rd2, rd3] ∧
    (bufThree.discard 1 3).1.impl.data.drop ((bufThree.discard 1 3).1.history_size)
      = [] := by decide

/-- C5 as amended: `discard(n, keep)` on a buffer with live size `s`
returns `min(n, s)`; the new history size is `min(keep, total stored
size)`; and the live region afterwards consists of the previously stored
elements from position `max(history_size + min(n, s), new history size)`
onward — i.e. the previous live elements from `min(n, s)` onward, except
that a `keep` reaching past the cut demotes further leading live
elements into history. -/
theorem claim5_discard_amended (b : TransferBuffer) (n keep : Nat) :
    (b.discard n keep).2 = min n b.size ∧
    (b.discard n keep).1.history_size = min keep b.impl.data.length ∧
    (b.discard n keep).1.impl.data.drop ((b.discard n keep).1.history_size)
      = b.impl.data.drop
          (max (b.history_size + min n b.size) (min keep b.impl.data.length)) := by
  obtain ⟨hd, hh, -⟩ := TransferBuffer.discard_fst_impl_data b n keep
  refine ⟨rfl, hh, ?_⟩
  rw [hd, hh]
  split
  · rename_i hlt
    rw [List.drop_drop]
    congr 1
    omega
  · congr 1
    omega

/-- C6: after `discard(n, keep = 1)` on a non-empty buffer satisfying the
history invariant, the stored sequence stays non-empty with an unchanged
last element, and an `append` of a candidate whose timestamp is not
greater than that element's timestamp appends nothing and returns 0: the
dedup/monotonicity baseline survives the discard. -/
theorem claim6_history_retention (b : TransferBuffer) (n : Nat)
    (hne : b.impl.data ≠ []) (hinv : b.history_size ≤ b.impl.data.length)
    (r : Reading) (m : Int) (hr : r.deleted = false)
    (ht : r.time_ms ≤ (b.impl.data.getLastD ubReading).time_ms) :
    (b.discard n 1).1.impl.data ≠ [] ∧
    (b.discard n 1).1.impl.data.getLastD ubReading = b.impl.data.getLastD ubReading ∧
    ((b.discard n 1).1.append [r] m).1.impl.data = (b.discard n 1).1.impl.data ∧
    ((b.discard n 1).1.append [r] m).2.2 = 0 := by
  obtain ⟨hd, hh, -⟩ := TransferBuffer.discard_fst_impl_data b n 1
  have hL : 0 < b.impl.data.length := List.length_pos.mpr hne
  have hcut : b.history_size + min n b.size ≤ b.impl.data.length := by
    have : b.size = b.impl.data.length - b.history_size := rfl
    omega
  have hne' : (b.discard n 1).1.impl.data ≠ [] := by
    rw [hd]
    split
    · rename_i hlt
      intro hnil
      rw [List.drop_eq_nil_iff] at hnil
      omega
    · exact hne
  have hlast : (b.discard n 1).1.impl.data.getLastD ubReading
      = b.impl.data.getLastD ubReading := by
    rw [hd]
    split
    · rename_i hlt
      rw [List.getLastD_eq_getLast?, List.getLastD_eq_getLast?,
        getLast?_drop b.impl.data _ (by omega)]
    · rfl
  obtain ⟨h1, h2⟩ := append_single_stale (b.discard n 1).1 r m hne' hr (by rw [hlast]; exact ht)
  exact ⟨hne', hlast, h1, h2⟩

/-- C6 witness: a buffer holding a single reading at 1000 ms, `n = 5`,
candidate at 900 ms. -/
theorem claim6_witness :
    (bufOne.impl.data ≠ [] ∧ bufOne.history_size ≤ bufOne.impl.data.length ∧
      rdLate.deleted = false ∧
      rdLate.time_ms ≤ (bufOne.impl.data.getLastD ubReading).time_ms) ∧
    ((bufOne.discard 5 1).1.impl.data ≠ [] ∧
      (bufOne.discard 5 1).1.impl.data.getLastD ubReading
        = bufOne.impl.data.getLastD ubReading ∧
      ((bufOne.discard 5 1).1.append [rdLate] 0).1.impl.data
        = (bufOne.discard 5 1).1.impl.data ∧
      ((bufOne.discard 5 1).1.append [rdLate] 0).2.2 = 0) :=
  ⟨⟨by decide, by decide, by decide, by decide⟩,
    claim6_history_retention bufOne 5 (by decide) (by decide) rdLate 0
      (by decide) (by decide)⟩

/-- C8 counterexample: with target capacity 1 and six live readings
(backing capacity 8), `discard(0, 1)` triggers the compaction, whose
range-assign of 6 stored elements reallocates to capacity 6 — above
`4 * target_capacity = 4`. The bound fails whenever more than
`4 * target_capacity` elements remain stored, under any allocator, since
capacity is at least the element count. -/
theorem claim8_counterexample :
    (bufSix.discard 0 1).1.target_capacity = 1 ∧
    (bufSix.discard 0 1).1.impl.cap = 6 ∧
    ¬((bufSix.discard 0 1).1.impl.cap
        ≤ 4 * (bufSix.discard 0 1).1.target_capacity) ∧
    ¬((bufSix.discard 0 1).1.capacity
        ≤ 4 * (bufSix.discard 0 1).1.target_capacity) := by decide

/-- C8 as amended: after every call to `discard`, the live capacity
(`capacity()`, reserved backing capacity minus history size) does not
exceed the larger of `4 * target_capacity` and the number of elements
still stored. -/
theorem claim8_capacity_bound_amended (b : TransferBuffer) (n keep : Nat) :
    (b.discard n keep).1.capacity
      ≤ max (4 * (b.discard n keep).1.target_capacity)
          ((b.discard n keep).1.impl.data.length) := by
  unfold TransferBuffer.discard TransferBuffer.shrink_to_target_capacity
    TransferBuffer.capacity
  dsimp only
  split <;> split <;> (try split) <;> (try dsimp only at *) <;>
    (try simp only [List.length_drop] at *) <;> omega

/-- C9 counterexample: a buffer with target capacity 1, three stored
readings and reserved capacity 4. Reserved storage exceeds the target
(under both readings: raw backing capacity 4 > 1, and `capacity()` 4 > 1),
yet `shrink_to_target_capacity()` leaves the backing store at capacity 3
(= stored element count), not "exactly target_capacity" = 1: a vector
cannot reserve less than its element count. -/
theorem claim9_counterexample :
    bufThreeSmall.target_capacity < bufThreeSmall.impl.cap ∧
    bufThreeSmall.target_capacity < bufThreeSmall.capacity ∧
    bufThreeSmall.shrink_to_target_capacity.impl.cap = 3 ∧
    bufThreeSmall.shrink_to_target_capacity.impl.cap
      ≠ bufThreeSmall.target_capacity := by decide

/-- C9 as amended: when `capacity()` (reserved minus history) does not
exceed the target, the call changes nothing; otherwise the backing store
is resized to exactly `max(target_capacity, stored element count)` and
keeps all stored (history plus live) elements in the same order, with
history split and target capacity unchanged. -/
theorem claim9_shrink_amended (b : TransferBuffer) :
    (b.capacity ≤ b.target_capacity → b.shrink_to_target_capacity = b) ∧
    (b.target_capacity < b.capacity →
      b.shrink_to_target_capacity.impl.data = b.impl.data ∧
      b.shrink_to_target_capacity.impl.cap
        = max b.target_capacity b.impl.data.length ∧
      b.shrink_to_target_capacity.history_size = b.history_size ∧
      b.shrink_to_target_capacity.target_capacity = b.target_capacity) := by
  constructor
  · intro h
    unfold TransferBuffer.shrink_to_target_capacity
    rw [if_pos h]
  · intro h
    unfold TransferBuffer.shrink_to_target_capacity
    rw [if_neg (by omega)]
    exact ⟨rfl, rfl, rfl, rfl⟩

/-- C9 witness: the shrink branch applied to `bufThreeSmall`. -/
theorem claim9_witness :
    bufThreeSmall.target_capacity < bufThreeSmall.capacity ∧
    (bufThreeSmall.shrink_to_target_capacity.impl.data = bufThreeSmall.impl.data ∧
      bufThreeSmall.shrink_to_target_capacity.impl.cap
        = max bufThreeSmall.target_capacity bufThreeSmall.impl.data.length ∧
      bufThreeSmall.shrink_to_target_capacity.history_size
        = bufThreeSmall.history_size ∧
      bufThreeSmall.shrink_to_target_capacity.target_capacity
        = bufThreeSmall.target_capacity) :=
  ⟨by decide, (claim9_shrink_amended bufThreeSmall).2 (by decide)⟩

/-- C10 counterexample: feeding the claim's literal (value, timestamp-ms)
pairs (1.0,1000), (2.0,2000), (2.1,3000), (2.1,3200), (2.1,3499),
(2.1,3500), (2.1,3990), (2.1,4000) with `min_ms_between_duplicates = 0`
accepts all 8 readings (every `dt` is positive and `dt >= 0` holds
vacuously), not 4, and stores nothing at timestamp 4001. -/
theorem claim10_counterexample :
    ((TransferBuffer.ofCapacity).append srcClaim10 0).2.2 = 8 ∧
    ((TransferBuffer.ofCapacity).append srcClaim10 0).2.2 ≠ 4 ∧
    ((TransferBuffer.ofCapacity).append srcClaim10 0).1.impl.data.map
        (fun r => r.time_ms)
      = [1000, 2000, 3000, 3200, 3499, 3500, 3990, 4000] := by decide

/-- C10 as amended: the scenario's readings carry second/microsecond
stamps {1,0},{2,0},{3,0},{3,200},{3,499},{3,500},{3,990},{3,1000}
(ut_TransferBuffer.cpp, `filter_by_time`), whose millisecond values are
1000, 2000, 3000, 3000, 3000, 3000, 3000, 3001; a single append into an
empty buffer with `min_ms_between_duplicates = 0` accepts exactly 4 of
them, stored at timestamps 1000, 2000, 3000 and 3001, and returns 4. -/
theorem claim10_scenario_amended :
    ((TransferBuffer.ofCapacity).append srcScenario 0).2.2 = 4 ∧
    ((TransferBuffer.ofCapacity).append srcScenario 0).1.impl.data.map
        (fun r => r.time_ms)
      = [1000, 2000, 3000, 3001] ∧
    ((TransferBuffer.ofCapacity).append srcScenario 0).1.impl.data.map
        (fun r => r.value)
      = [1, 2, q21, q21] := by decide

end VzTransfer
